import Mathlib

set_option maxHeartbeats 1000000
set_option linter.unusedVariables false

/-! Shallow embedding of the cloth/flag simulation core (src/physics.rs,
constants from src/main.rs). The Rust f32 arithmetic is modelled by exact
real arithmetic; node storage is a list of particle states. -/

namespace Sim

noncomputable section

/-- Simulation area width (main.rs: const WIDTH: usize = 1500). -/
def WIDTH : ℕ := 1500

/-- Simulation area height (main.rs: const HEIGHT: usize = 1500). -/
def HEIGHT : ℕ := 1500

/-- Two-dimensional vector (glam Vec2), components modelled as reals. -/
@[ext]
structure Vec2 where
  x : ℝ
  y : ℝ

instance : Add Vec2 := ⟨fun a b => ⟨a.x + b.x, a.y + b.y⟩⟩

instance : Sub Vec2 := ⟨fun a b => ⟨a.x - b.x, a.y - b.y⟩⟩

instance : Neg Vec2 := ⟨fun a => ⟨-a.x, -a.y⟩⟩

instance : SMul ℝ Vec2 := ⟨fun c v => ⟨c * v.x, c * v.y⟩⟩

instance : Inhabited Vec2 := ⟨⟨0, 0⟩⟩

@[simp] theorem Vec2.add_x (a b : Vec2) : (a + b).x = a.x + b.x := rfl

@[simp] theorem Vec2.add_y (a b : Vec2) : (a + b).y = a.y + b.y := rfl

@[simp] theorem Vec2.sub_x (a b : Vec2) : (a - b).x = a.x - b.x := rfl

@[simp] theorem Vec2.sub_y (a b : Vec2) : (a - b).y = a.y - b.y := rfl

@[simp] theorem Vec2.neg_x (v : Vec2) : (-v).x = -v.x := rfl

@[simp] theorem Vec2.neg_y (v : Vec2) : (-v).y = -v.y := rfl

@[simp] theorem Vec2.smul_x (c : ℝ) (v : Vec2) : (c • v).x = c * v.x := rfl

@[simp] theorem Vec2.smul_y (c : ℝ) (v : Vec2) : (c • v).y = c * v.y := rfl

/-- glam length_squared. -/
def Vec2.lengthSq (v : Vec2) : ℝ := v.x * v.x + v.y * v.y

/-- glam length: Euclidean norm. -/
def Vec2.length (v : Vec2) : ℝ := Real.sqrt v.lengthSq

/-- glam distance between two points. -/
def Vec2.dist (a b : Vec2) : ℝ := (a - b).length

/-- glam distance_squared between two points. -/
def Vec2.distSq (a b : Vec2) : ℝ := (a - b).lengthSq

/-- glam clamp_length_max: rescale the vector to length m when it is longer. -/
def Vec2.clampLengthMax (v : Vec2) (m : ℝ) : Vec2 :=
  if m * m < v.lengthSq then (m / v.length) • v else v

/-- Particle state (struct Node in physics.rs). -/
structure Node where
  pos : Vec2
  last_pos : Vec2
  pinned : Bool

instance : Inhabited Node := ⟨⟨⟨0, 0⟩, ⟨0, 0⟩, false⟩⟩

/-- Distance constraint between two particles (struct Link in physics.rs). -/
structure Link where
  node1 : ℕ
  node2 : ℕ
  resting_distance : ℝ

instance : Inhabited Link := ⟨⟨0, 0, 0⟩⟩

/-- Link::new: the resting distance is the current distance of the two nodes. -/
def Link.new (nodes : List Node) (node1 node2 : ℕ) : Link :=
  ⟨node1, node2, Vec2.dist (nodes.getD node1 default).pos (nodes.getD node2 default).pos⟩

/-- Particle grid position written by Flag::new: (x, y) * (size / width) + corner. -/
def posAt (corner : Vec2) (size : ℝ) (w x y : ℕ) : Vec2 :=
  ⟨(x : ℝ) * (size / (w : ℝ)) + corner.x, (y : ℝ) * (size / (w : ℝ)) + corner.y⟩

/-- The nodes written by Flag::new into its slice, in index order x + y * width;
last_pos = pos and pinned exactly at column 0, row 0 or row height - 1. -/
def flagNodes (corner : Vec2) (size : ℝ) (w h : ℕ) : List Node :=
  (List.range h).flatMap fun y =>
    (List.range w).map fun x =>
      ⟨posAt corner size w x y, posAt corner size w x y,
        x == 0 && (y == 0 || y == h - 1)⟩

/-- Horizontal links built by Flag::new. -/
def flagLinksH (corner : Vec2) (size : ℝ) (w h : ℕ) : List Link :=
  (List.range h).flatMap fun y =>
    (List.range (w - 1)).map fun x =>
      Link.new (flagNodes corner size w h) (x + y * w) (x + 1 + y * w)

/-- Vertical links built by Flag::new. -/
def flagLinksV (corner : Vec2) (size : ℝ) (w h : ℕ) : List Link :=
  (List.range w).flatMap fun x =>
    (List.range (h - 1)).map fun y =>
      Link.new (flagNodes corner size w h) (x + y * w) (x + (y + 1) * w)

/-- All links of one flag, horizontal then vertical (Flag::new). -/
def flagLinks (corner : Vec2) (size : ℝ) (w h : ℕ) : List Link :=
  flagLinksH corner size w h ++ flagLinksV corner size w h

/-- struct Flag: grid dimensions plus local and offset link lists. -/
structure Flag where
  width : ℕ
  height : ℕ
  links : List Link
  offset_links : List Link

/-- Flag::new, as the produced Flag value (its node writes are flagNodes). -/
def Flag.new (node_offset : ℕ) (corner : Vec2) (size : ℝ) (w h : ℕ) : Flag :=
  { width := w, height := h,
    links := flagLinks corner size w h,
    offset_links := (flagLinks corner size w h).map fun l =>
      ⟨l.node1 + node_offset, l.node2 + node_offset, l.resting_distance⟩ }

/-- struct FlagParams. -/
structure FlagParams where
  size : ℝ
  corner : Vec2
  width : ℕ
  height : ℕ

/-- The scan used in Physics::new and Physics::apply_links: running offsets
(exclusive prefix sums) of the given sizes. -/
def offsetsOf : List ℕ → List ℕ
  | [] => []
  | s :: rest => 0 :: (offsetsOf rest).map fun t => t + s

/-- Particle counts of the instances, in registration order. -/
def sizesOf (ps : List FlagParams) : List ℕ := ps.map fun fp => fp.width * fp.height

/-- struct Physics. -/
structure Physics where
  nodes : List Node
  flags : List Flag
  selected_nodes : Option (List ℕ)

/-- Physics::new: concatenated per-flag nodes and the flags at their offsets. -/
def Physics.new (ps : List FlagParams) : Physics :=
  { nodes := ps.flatMap fun fp => flagNodes fp.corner fp.size fp.width fp.height,
    flags := (ps.zip (offsetsOf (sizesOf ps))).map fun po =>
      Flag.new po.2 po.1.corner po.1.size po.1.width po.1.height,
    selected_nodes := none }

/-- Physics::update_pos on one node; pinned nodes are filtered out unchanged. -/
def updateNode (gravity : Vec2) (dt : ℝ) (n : Node) : Node :=
  if n.pinned then n
  else
    { pos := n.pos + Vec2.clampLengthMax (n.pos - n.last_pos + (dt * dt) • gravity) 50,
      last_pos := n.pos, pinned := n.pinned }

/-- Physics::update_pos. -/
def Physics.update_pos (p : Physics) (gravity : Vec2) (dt : ℝ) : Physics :=
  { p with nodes := p.nodes.map (updateNode gravity dt) }

/-- Physics::apply_constraint on one node: each out-of-area coordinate is pulled
back by 0.75 of its overshoot; pinned nodes are filtered out unchanged. -/
def constrainNode (n : Node) : Node :=
  if n.pinned then n
  else
    let x1 := if (WIDTH : ℝ) < n.pos.x then n.pos.x + 0.75 * ((WIDTH : ℝ) - n.pos.x) else n.pos.x
    let x2 := if x1 < 0 then x1 - 0.75 * x1 else x1
    let y1 := if (HEIGHT : ℝ) < n.pos.y then n.pos.y + 0.75 * ((HEIGHT : ℝ) - n.pos.y) else n.pos.y
    let y2 := if y1 < 0 then y1 - 0.75 * y1 else y1
    { n with pos := ⟨x2, y2⟩ }

/-- Physics::apply_constraint. -/
def Physics.apply_constraint (p : Physics) : Physics :=
  { p with nodes := p.nodes.map constrainNode }

/-- Write position q at index i, keeping the node's other fields. -/
def setPos (ns : List Node) (i : ℕ) (q : Vec2) : List Node :=
  ns.set i { ns.getD i default with pos := q }

/-- The correction vector n = diff * force computed for one link in
Physics::apply_links: diff of the endpoint positions, dist its length, and the
correction factor min((resting_distance - dist) / dist * 0.5, 0.001). -/
def linkCorrection (ns : List Node) (off : ℕ) (l : Link) : Vec2 :=
  let diff := (ns.getD (off + l.node1) default).pos - (ns.getD (off + l.node2) default).pos
  let dist := diff.length
  let force := min ((l.resting_distance - dist) / dist * 0.5) 0.001
  force • diff

/-- One link relaxation (loop body of Physics::apply_links), with the
chunk-local link indices translated by the chunk offset: add the correction to
node1 and subtract it from node2, skipping a side whose node is pinned. -/
def applyLink (ns : List Node) (off : ℕ) (l : Link) : List Node :=
  let a := off + l.node1
  let b := off + l.node2
  let n := linkCorrection ns off l
  let ns1 := if (ns.getD a default).pinned then ns else setPos ns a ((ns.getD a default).pos + n)
  if (ns1.getD b default).pinned then ns1 else setPos ns1 b ((ns1.getD b default).pos - n)

/-- Modelled from the spec: ChunksMutIndices (src/chunk_iter.rs, not present
under src/) splits the node array at the scan breakpoints into consecutive
disjoint per-instance slices (spec §4.4, §5), so chunk-local index i of the
slice starting at breakpoint off is global index off + i. Physics::apply_links
relaxes each flag's links over its own slice; the parallel fan-out writes
disjoint slices only, hence it equals this sequential fold over the flags. -/
def Physics.apply_links (p : Physics) : Physics :=
  let breakpoints := offsetsOf (p.flags.map (fun f => f.width * f.height))
  let relaxed := (p.flags.zip breakpoints).foldl
    (fun ns fo => fo.1.links.foldl (fun ms l => applyLink ms fo.2 l) ns) p.nodes
  { p with nodes := relaxed }

/-- Physics::step: integrate, constrain, relax. -/
def Physics.step (p : Physics) (gravity : Vec2) (dt : ℝ) : Physics :=
  ((p.update_pos gravity dt).apply_constraint).apply_links

/-- Physics::select_nodes: collect the indices strictly within radius 10 of
pos; store them if any, otherwise clear the selection. -/
def Physics.select_nodes (p : Physics) (pos : Vec2) : Physics :=
  let in_range := (List.range p.nodes.length).filter fun i =>
    decide (Vec2.distSq (p.nodes.getD i default).pos pos < 10 * 10)
  { p with selected_nodes := if in_range.isEmpty then none else some in_range }

/-- Physics::move_selected_nodes: set every selected node's position to pos. -/
def Physics.move_selected_nodes (p : Physics) (pos : Vec2) : Physics :=
  match p.selected_nodes with
  | none => p
  | some sel => { p with nodes := sel.foldl (fun ns i => setPos ns i pos) p.nodes }

/-- Rust cast usize → i16: two's-complement truncation to 16 bits. -/
def toI16 (n : ℕ) : ℤ :=
  if n % 65536 < 32768 then (n % 65536 : ℤ) else (n % 65536 : ℤ) - 65536

/-- Rust cast usize → i32: two's-complement truncation to 32 bits. -/
def toI32 (n : ℕ) : ℤ :=
  if n % 4294967296 < 2147483648 then (n % 4294967296 : ℤ)
  else (n % 4294967296 : ℤ) - 4294967296

/-- Physics::get_indices: flattened offset link endpoints, narrowed to i16. -/
def Physics.get_indices (p : Physics) : List ℤ :=
  (p.flags.flatMap (fun f => f.offset_links)).flatMap
    (fun l => [toI16 l.node1, toI16 l.node2])

/-- Physics::get_points. -/
def Physics.get_points (p : Physics) : List Vec2 := p.nodes.map fun n => n.pos

/-- Physics::num_links: sum of the per-flag link counts, each cast to i32. -/
def Physics.num_links (p : Physics) : ℤ :=
  (p.flags.map fun f => toI32 f.links.length).sum

/-- setPos never changes the pinned flag at any index. -/
theorem setPos_pinned (ns : List Node) (i : ℕ) (q : Vec2) (j : ℕ) :
    ((setPos ns i q).getD j default).pinned = (ns.getD j default).pinned := by
  unfold setPos
  rcases eq_or_ne i j with rfl | h
  · by_cases hi : i < ns.length
    · simp [List.getD_eq_getElem?_getD, List.getElem?_set_self hi]
    · rw [List.set_eq_of_length_le (Nat.le_of_not_lt hi)]
  · simp [List.getD_eq_getElem?_getD, List.getElem?_set_ne h]

/-- setPos never changes the previous position at any index. -/
theorem setPos_last (ns : List Node) (i : ℕ) (q : Vec2) (j : ℕ) :
    ((setPos ns i q).getD j default).last_pos = (ns.getD j default).last_pos := by
  unfold setPos
  rcases eq_or_ne i j with rfl | h
  · by_cases hi : i < ns.length
    · simp [List.getD_eq_getElem?_getD, List.getElem?_set_self hi]
    · rw [List.set_eq_of_length_le (Nat.le_of_not_lt hi)]
  · simp [List.getD_eq_getElem?_getD, List.getElem?_set_ne h]

/-- setPos does not change positions at other indices. -/
theorem setPos_pos_ne (ns : List Node) (i : ℕ) (q : Vec2) (j : ℕ) (h : j ≠ i) :
    ((setPos ns i q).getD j default).pos = (ns.getD j default).pos := by
  simp [setPos, List.getD_eq_getElem?_getD, List.getElem?_set_ne (Ne.symm h)]

/-- setPos writes the given position at an in-range index. -/
theorem setPos_pos_self (ns : List Node) (i : ℕ) (q : Vec2) (hi : i < ns.length) :
    ((setPos ns i q).getD i default).pos = q := by
  simp [setPos, List.getD_eq_getElem?_getD, List.getElem?_set_self hi]

/-- setPos keeps the length of the node list. -/
theorem setPos_length (ns : List Node) (i : ℕ) (q : Vec2) :
    (setPos ns i q).length = ns.length := by
  simp [setPos]

/-- One link relaxation never changes any pinned flag. -/
theorem applyLink_pinned (ns : List Node) (off : ℕ) (l : Link) (j : ℕ) :
    ((applyLink ns off l).getD j default).pinned = (ns.getD j default).pinned := by
  simp only [applyLink]
  split_ifs <;> simp only [setPos_pinned]

/-- One link relaxation never changes any previous position. -/
theorem applyLink_last (ns : List Node) (off : ℕ) (l : Link) (j : ℕ) :
    ((applyLink ns off l).getD j default).last_pos = (ns.getD j default).last_pos := by
  simp only [applyLink]
  split_ifs <;> simp only [setPos_last]

/-- One link relaxation keeps the length of the node list. -/
theorem applyLink_length (ns : List Node) (off : ℕ) (l : Link) :
    (applyLink ns off l).length = ns.length := by
  simp only [applyLink]
  split_ifs <;> simp [setPos_length]

/-- One link relaxation leaves the position of a pinned node untouched. -/
theorem applyLink_pos_pinned (ns : List Node) (off : ℕ) (l : Link) (j : ℕ)
    (hj : (ns.getD j default).pinned = true) :
    ((applyLink ns off l).getD j default).pos = (ns.getD j default).pos := by
  simp only [applyLink]
  split_ifs with h1 h2 h2
  · rfl
  · refine setPos_pos_ne _ _ _ _ ?_
    intro e
    rw [e] at hj
    exact h2 hj
  · refine setPos_pos_ne _ _ _ _ ?_
    intro e
    rw [e] at hj
    exact h1 hj
  · rw [setPos_pinned] at h2
    have hja : j ≠ off + l.node1 := by
      intro e
      rw [e] at hj
      exact h1 hj
    have hjb : j ≠ off + l.node2 := by
      intro e
      rw [e] at hj
      exact h2 hj
    rw [setPos_pos_ne _ _ _ _ hjb, setPos_pos_ne _ _ _ _ hja]

/-- Folding link relaxations over a link list never changes pinned flags. -/
theorem foldl_links_pinned (off : ℕ) (links : List Link) (ns : List Node) (j : ℕ) :
    ((links.foldl (fun ms l => applyLink ms off l) ns).getD j default).pinned
      = (ns.getD j default).pinned := by
  induction links generalizing ns with
  | nil => rfl
  | cons l rest ih => rw [List.foldl_cons, ih, applyLink_pinned]

/-- Folding link relaxations leaves positions of pinned nodes untouched. -/
theorem foldl_links_pos_pinned (off : ℕ) (links : List Link) (ns : List Node) (j : ℕ)
    (hj : (ns.getD j default).pinned = true) :
    ((links.foldl (fun ms l => applyLink ms off l) ns).getD j default).pos
      = (ns.getD j default).pos := by
  induction links generalizing ns with
  | nil => rfl
  | cons l rest ih =>
    rw [List.foldl_cons, ih _ (by rw [applyLink_pinned]; exact hj),
      applyLink_pos_pinned _ _ _ _ hj]

/-- The whole relaxation fold over all flags never changes pinned flags. -/
theorem foldl_flags_pinned (pairs : List (Flag × ℕ)) (ns : List Node) (j : ℕ) :
    ((pairs.foldl (fun ns fo => fo.1.links.foldl (fun ms l => applyLink ms fo.2 l) ns) ns).getD
        j default).pinned = (ns.getD j default).pinned := by
  induction pairs generalizing ns with
  | nil => rfl
  | cons fo rest ih => rw [List.foldl_cons, ih, foldl_links_pinned]

/-- The whole relaxation fold leaves positions of pinned nodes untouched. -/
theorem foldl_flags_pos_pinned (pairs : List (Flag × ℕ)) (ns : List Node) (j : ℕ)
    (hj : (ns.getD j default).pinned = true) :
    ((pairs.foldl (fun ns fo => fo.1.links.foldl (fun ms l => applyLink ms fo.2 l) ns) ns).getD
        j default).pos = (ns.getD j default).pos := by
  induction pairs generalizing ns with
  | nil => rfl
  | cons fo rest ih =>
    rw [List.foldl_cons, ih _ (by rw [foldl_links_pinned]; exact hj),
      foldl_links_pos_pinned _ _ _ _ hj]

/-- The integrator step function keeps the pinned flag. -/
theorem updateNode_pinned (g : Vec2) (dt : ℝ) (n : Node) :
    (updateNode g dt n).pinned = n.pinned := by
  unfold updateNode
  split <;> rfl

/-- The integrator skips pinned nodes entirely. -/
theorem updateNode_of_pinned (g : Vec2) (dt : ℝ) (n : Node) (h : n.pinned = true) :
    updateNode g dt n = n := by
  simp [updateNode, h]

/-- The boundary pass keeps the pinned flag. -/
theorem constrainNode_pinned (n : Node) : (constrainNode n).pinned = n.pinned := by
  unfold constrainNode
  split <;> rfl

/-- The boundary pass skips pinned nodes entirely. -/
theorem constrainNode_of_pinned (n : Node) (h : n.pinned = true) : constrainNode n = n := by
  simp [constrainNode, h]

/-- getD through map, at an in-range index, with arbitrary defaults. -/
theorem getD_map_of_lt {α β : Type} (f : α → β) (l : List α) (i : ℕ) (d : α) (e : β)
    (hi : i < l.length) : (l.map f).getD i e = f (l.getD i d) := by
  simp [List.getD_eq_getElem?_getD, List.getElem?_eq_getElem hi, List.getElem?_map]

/-- C1: For every pinned particle, position is unchanged across any call to
step, for every gravity vector and every positive delta_time; the integrator
(update_pos), the boundary constraint (apply_constraint) and the link
relaxation (apply_links) each leave pinned particles untouched. -/
theorem C1_pinned_position_unchanged (p : Physics) (g : Vec2) (dt : ℝ)
    (hdt : 0 < dt) (i : ℕ) (hi : i < p.nodes.length)
    (hp : (p.nodes.getD i default).pinned = true) :
    (((p.update_pos g dt).nodes.getD i default).pos = (p.nodes.getD i default).pos)
      ∧ ((p.apply_constraint.nodes.getD i default).pos = (p.nodes.getD i default).pos)
      ∧ ((p.apply_links.nodes.getD i default).pos = (p.nodes.getD i default).pos)
      ∧ (((p.step g dt).nodes.getD i default).pos = (p.nodes.getD i default).pos) := by
  have hup : ∀ q : Physics, ∀ j, j < q.nodes.length →
      (q.nodes.getD j default).pinned = true →
      (q.update_pos g dt).nodes.getD j default = q.nodes.getD j default := by
    intro q j hj hqp
    show (q.nodes.map (updateNode g dt)).getD j default = _
    rw [getD_map_of_lt _ _ _ default _ hj, updateNode_of_pinned _ _ _ hqp]
  have hcon : ∀ q : Physics, ∀ j, j < q.nodes.length →
      (q.nodes.getD j default).pinned = true →
      q.apply_constraint.nodes.getD j default = q.nodes.getD j default := by
    intro q j hj hqp
    show (q.nodes.map constrainNode).getD j default = _
    rw [getD_map_of_lt _ _ _ default _ hj, constrainNode_of_pinned _ hqp]
  have hlinks : ∀ q : Physics,
      (q.nodes.getD i default).pinned = true →
      (q.apply_links.nodes.getD i default).pos = (q.nodes.getD i default).pos := by
    intro q hqp
    exact foldl_flags_pos_pinned _ _ _ hqp
  have h1 := hup p i hi hp
  have h2 := hcon p i hi hp
  refine ⟨by rw [h1], by rw [h2], hlinks p hp, ?_⟩
  show (((p.update_pos g dt).apply_constraint).apply_links.nodes.getD i default).pos = _
  have hl1 : i < (p.update_pos g dt).nodes.length := by
    show i < (p.nodes.map (updateNode g dt)).length
    simpa using hi
  have h2' := hcon (p.update_pos g dt) i hl1 (by rw [h1]; exact hp)
  rw [hlinks _ (by rw [h2', h1]; exact hp), h2', h1]

/-- Concrete two-node, one-flag state with node 0 pinned, used by witnesses. -/
def Pw : Physics :=
  ⟨[⟨⟨1, 2⟩, ⟨1, 2⟩, true⟩, ⟨⟨4, 2⟩, ⟨4, 2⟩, false⟩],
    [⟨2, 1, [⟨0, 1, 3⟩], [⟨0, 1, 3⟩]⟩], none⟩

/-- C1 witness: node 0 of the concrete state Pw is pinned and keeps its
position through each pass and through a full step. -/
theorem C1_witness :
    (((Pw.update_pos ⟨0, 9⟩ 1).nodes.getD 0 default).pos = (Pw.nodes.getD 0 default).pos)
      ∧ ((Pw.apply_constraint.nodes.getD 0 default).pos = (Pw.nodes.getD 0 default).pos)
      ∧ ((Pw.apply_links.nodes.getD 0 default).pos = (Pw.nodes.getD 0 default).pos)
      ∧ (((Pw.step ⟨0, 9⟩ 1).nodes.getD 0 default).pos = (Pw.nodes.getD 0 default).pos) :=
  C1_pinned_position_unchanged Pw ⟨0, 9⟩ 1 (by norm_num) 0 (by simp [Pw]) (by rfl)

/-- C2: during one relaxation pass, for a link whose endpoints are both
unpinned, the solver adds the correction vector n = diff * min((resting_length
- dist) / dist * 0.5, 0.001) to particle A and subtracts the same vector from
particle B, so the two corrections are equal in magnitude and opposite. -/
theorem C2_link_corrections_equal_opposite (ns : List Node) (off : ℕ) (l : Link)
    (ha : off + l.node1 < ns.length) (hb : off + l.node2 < ns.length)
    (hab : off + l.node1 ≠ off + l.node2)
    (hpa : (ns.getD (off + l.node1) default).pinned = false)
    (hpb : (ns.getD (off + l.node2) default).pinned = false) :
    (((applyLink ns off l).getD (off + l.node1) default).pos
        = (ns.getD (off + l.node1) default).pos + linkCorrection ns off l)
      ∧ (((applyLink ns off l).getD (off + l.node2) default).pos
        = (ns.getD (off + l.node2) default).pos - linkCorrection ns off l)
      ∧ (((applyLink ns off l).getD (off + l.node1) default).pos
            - (ns.getD (off + l.node1) default).pos)
        = -((((applyLink ns off l).getD (off + l.node2) default).pos
            - (ns.getD (off + l.node2) default).pos)) := by
  have g1 : ¬((ns.getD (off + l.node1) default).pinned = true) := by
    rw [hpa]
    exact Bool.false_ne_true
  have g2 : ¬(((setPos ns (off + l.node1)
      ((ns.getD (off + l.node1) default).pos + linkCorrection ns off l)).getD
        (off + l.node2) default).pinned = true) := by
    rw [setPos_pinned, hpb]
    exact Bool.false_ne_true
  have e : applyLink ns off l
      = setPos (setPos ns (off + l.node1)
          ((ns.getD (off + l.node1) default).pos + linkCorrection ns off l))
        (off + l.node2)
        (((setPos ns (off + l.node1)
            ((ns.getD (off + l.node1) default).pos + linkCorrection ns off l)).getD
              (off + l.node2) default).pos - linkCorrection ns off l) := by
    simp only [applyLink]
    rw [if_neg g1, if_neg g2]
  have hbpos : ((setPos ns (off + l.node1)
      ((ns.getD (off + l.node1) default).pos + linkCorrection ns off l)).getD
        (off + l.node2) default).pos = (ns.getD (off + l.node2) default).pos :=
    setPos_pos_ne _ _ _ _ (Ne.symm hab)
  have c1 : ((applyLink ns off l).getD (off + l.node1) default).pos
      = (ns.getD (off + l.node1) default).pos + linkCorrection ns off l := by
    rw [e, setPos_pos_ne _ _ _ _ hab, setPos_pos_self _ _ _ ha]
  have c2 : ((applyLink ns off l).getD (off + l.node2) default).pos
      = (ns.getD (off + l.node2) default).pos - linkCorrection ns off l := by
    rw [e, setPos_pos_self _ _ _ (by rw [setPos_length]; exact hb), hbpos]
  refine ⟨c1, c2, ?_⟩
  rw [c1, c2]
  ext <;> simp

/-- Concrete two-node unpinned state for the C2 witness. -/
def ns₂ : List Node := [⟨⟨0, 0⟩, ⟨0, 0⟩, false⟩, ⟨⟨3, 4⟩, ⟨3, 4⟩, false⟩]

/-- C2 witness: the relaxation of a concrete link between two unpinned nodes
applies the correction to A and its negation to B. -/
theorem C2_witness :
    (((applyLink ns₂ 0 ⟨0, 1, 5⟩).getD (0 + (0 : ℕ)) default).pos
        = (ns₂.getD (0 + (0 : ℕ)) default).pos + linkCorrection ns₂ 0 ⟨0, 1, 5⟩)
      ∧ (((applyLink ns₂ 0 ⟨0, 1, 5⟩).getD (0 + (1 : ℕ)) default).pos
        = (ns₂.getD (0 + (1 : ℕ)) default).pos - linkCorrection ns₂ 0 ⟨0, 1, 5⟩)
      ∧ (((applyLink ns₂ 0 ⟨0, 1, 5⟩).getD (0 + (0 : ℕ)) default).pos
            - (ns₂.getD (0 + (0 : ℕ)) default).pos)
        = -((((applyLink ns₂ 0 ⟨0, 1, 5⟩).getD (0 + (1 : ℕ)) default).pos
            - (ns₂.getD (0 + (1 : ℕ)) default).pos)) :=
  C2_link_corrections_equal_opposite ns₂ 0 ⟨0, 1, 5⟩ (by simp [ns₂]) (by simp [ns₂])
    (by norm_num) (by rfl) (by rfl)

/-- offsetsOf keeps the length of the size list. -/
theorem offsetsOf_length (sizes : List ℕ) : (offsetsOf sizes).length = sizes.length := by
  induction sizes with
  | nil => rfl
  | cons s rest ih => simp [offsetsOf, ih]

/-- The i-th scan offset is the sum of the sizes before i. -/
theorem offsetsOf_getD (sizes : List ℕ) (i : ℕ) (hi : i < sizes.length) :
    (offsetsOf sizes).getD i 0 = (sizes.take i).sum := by
  induction sizes generalizing i with
  | nil => simp at hi
  | cons s rest ih =>
    cases i with
    | zero => rfl
    | succ i =>
      have hi' : i < rest.length := by simpa using hi
      have hlen : i < (offsetsOf rest).length := by rw [offsetsOf_length]; exact hi'
      show ((offsetsOf rest).map (fun t => t + s)).getD i 0 = _
      rw [getD_map_of_lt _ _ _ 0 _ hlen, ih i hi', List.take_succ_cons, List.sum_cons,
        Nat.add_comm]

/-- Prefix sums of a ℕ list are monotone. -/
theorem sum_take_mono (L : List ℕ) (i j : ℕ) (hij : i ≤ j) :
    (L.take i).sum ≤ (L.take j).sum := by
  have e : j = i + (j - i) := by omega
  rw [e, List.take_add, List.sum_append]
  exact Nat.le_add_right _ _

/-- Prefix-sum step: adding the i-th size moves to the next offset. -/
theorem sum_take_step (L : List ℕ) (i : ℕ) (hi : i < L.length) :
    (L.take (i + 1)).sum = (L.take i).sum + L.getD i 0 := by
  rw [List.take_succ, List.sum_append, List.getElem?_eq_getElem hi]
  simp [List.getD_eq_getElem?_getD, List.getElem?_eq_getElem hi]

/-- Every position below the total is inside one of the scan ranges. -/
theorem sum_take_cover (L : List ℕ) (k : ℕ) (hk : k < L.sum) :
    ∃ i, i < L.length ∧ (L.take i).sum ≤ k ∧ k < (L.take i).sum + L.getD i 0 := by
  induction L generalizing k with
  | nil => simp at hk
  | cons s rest ih =>
    by_cases hks : k < s
    · exact ⟨0, by simp, by simp, by simpa using hks⟩
    · have hk' : k - s < rest.sum := by
        rw [List.sum_cons] at hk
        omega
      obtain ⟨i, hi, h1, h2⟩ := ih (k - s) hk'
      refine ⟨i + 1, by simpa using hi, ?_, ?_⟩
      · rw [List.take_succ_cons, List.sum_cons]
        omega
      · rw [List.take_succ_cons, List.sum_cons]
        show k < s + (rest.take i).sum + (rest.getD i 0)
        omega

/-- Length of a fold of constant-width blocks over a range. -/
theorem length_flatMap_range {α : Type} (f : ℕ → List α) (h w : ℕ)
    (hf : ∀ y, (f y).length = w) : ((List.range h).flatMap f).length = h * w := by
  induction h with
  | zero => simp
  | succ h ih =>
    rw [List.range_succ, List.flatMap_append, List.length_append, ih,
      List.flatMap_cons, List.flatMap_nil, List.append_nil, hf, Nat.succ_mul]

/-- The nodes of one flag form a width * height grid. -/
theorem flagNodes_length (corner : Vec2) (size : ℝ) (w h : ℕ) :
    (flagNodes corner size w h).length = w * h := by
  rw [flagNodes, length_flatMap_range _ h w (fun y => by simp), Nat.mul_comm]

/-- Physics::new allocates exactly the sum of the instance particle counts. -/
theorem physics_new_nodes_length (ps : List FlagParams) :
    (Physics.new ps).nodes.length = (sizesOf ps).sum := by
  show (ps.flatMap (fun fp => flagNodes fp.corner fp.size fp.width fp.height)).length = _
  induction ps with
  | nil => rfl
  | cons fp rest ih =>
    rw [List.flatMap_cons, List.length_append, flagNodes_length]
    simp only [sizesOf, List.map_cons, List.sum_cons]
    rw [ih]
    rfl

/-- The per-flag particle counts recomputed from the flags of Physics::new
(as done by the breakpoint scan of apply_links) are the instance counts. -/
theorem physics_new_flag_sizes (ps : List FlagParams) :
    ((Physics.new ps).flags.map (fun f => f.width * f.height)) = sizesOf ps := by
  show ((ps.zip (offsetsOf (sizesOf ps))).map _).map _ = _
  rw [List.map_map]
  have hlen : ps.length ≤ (offsetsOf (sizesOf ps)).length := by
    rw [offsetsOf_length, sizesOf, List.length_map]
  calc ((ps.zip (offsetsOf (sizesOf ps))).map
        ((fun f => f.width * f.height) ∘ fun po =>
          Flag.new po.2 po.1.corner po.1.size po.1.width po.1.height))
      = ((ps.zip (offsetsOf (sizesOf ps))).map (fun po => po.1.width * po.1.height)) := rfl
    _ = ((ps.zip (offsetsOf (sizesOf ps))).map Prod.fst).map
          (fun fp => fp.width * fp.height) := by rw [List.map_map]; rfl
    _ = sizesOf ps := by rw [List.map_fst_zip _ _ hlen]; rfl

/-- Two concrete instances of 6 and 4 particles (3x2 and 2x2 grids). -/
def ps46 : List FlagParams := [⟨12, ⟨0, 0⟩, 3, 2⟩, ⟨8, ⟨100, 0⟩, 2, 2⟩]

/-- C3: for every non-empty instance list, the scan offsets over the particle
counts (width * height, registration order) give contiguous, pairwise disjoint
ranges whose union is the whole node array; the counts the breakpoint scan of
apply_links recomputes from the flags are those same counts; and the concrete
6-and-4 scenario yields a 10-entry array with ranges [0,6) and [6,10). -/
theorem C3_partition_ranges (ps : List FlagParams) (hne : ps ≠ []) :
    ((offsetsOf (sizesOf ps)).length = (sizesOf ps).length)
      ∧ ((Physics.new ps).flags.map (fun f => f.width * f.height) = sizesOf ps)
      ∧ ((Physics.new ps).nodes.length = (sizesOf ps).sum)
      ∧ (∀ i, i + 1 < (sizesOf ps).length →
          (offsetsOf (sizesOf ps)).getD (i + 1) 0
            = (offsetsOf (sizesOf ps)).getD i 0 + (sizesOf ps).getD i 0)
      ∧ (∀ i j, i < j → j < (sizesOf ps).length →
          (offsetsOf (sizesOf ps)).getD i 0 + (sizesOf ps).getD i 0
            ≤ (offsetsOf (sizesOf ps)).getD j 0)
      ∧ (∀ k, k < (sizesOf ps).sum → ∃ i, i < (sizesOf ps).length
          ∧ (offsetsOf (sizesOf ps)).getD i 0 ≤ k
          ∧ k < (offsetsOf (sizesOf ps)).getD i 0 + (sizesOf ps).getD i 0)
      ∧ (∀ k i j, i < (sizesOf ps).length → j < (sizesOf ps).length →
          (offsetsOf (sizesOf ps)).getD i 0 ≤ k →
          k < (offsetsOf (sizesOf ps)).getD i 0 + (sizesOf ps).getD i 0 →
          (offsetsOf (sizesOf ps)).getD j 0 ≤ k →
          k < (offsetsOf (sizesOf ps)).getD j 0 + (sizesOf ps).getD j 0 → i = j)
      ∧ (offsetsOf (sizesOf ps46) = [0, 6])
      ∧ ((Physics.new ps46).nodes.length = 10) := by
  have step : ∀ i, i < (sizesOf ps).length →
      (offsetsOf (sizesOf ps)).getD i 0 + (sizesOf ps).getD i 0
        = ((sizesOf ps).take (i + 1)).sum := by
    intro i hi
    rw [offsetsOf_getD _ _ hi, sum_take_step _ _ hi]
  have disj : ∀ i j, i < j → j < (sizesOf ps).length →
      (offsetsOf (sizesOf ps)).getD i 0 + (sizesOf ps).getD i 0
        ≤ (offsetsOf (sizesOf ps)).getD j 0 := by
    intro i j hij hj
    rw [step i (Nat.lt_trans hij hj), offsetsOf_getD _ _ hj]
    exact sum_take_mono _ _ _ hij
  refine ⟨offsetsOf_length _, physics_new_flag_sizes ps, physics_new_nodes_length ps,
    ?_, disj, ?_, ?_, by rfl, by rfl⟩
  · intro i hi
    rw [offsetsOf_getD _ _ hi, step i (Nat.lt_of_succ_lt hi), sum_take_step]
    exact Nat.lt_of_succ_lt hi
  · intro k hk
    obtain ⟨i, hi, h1, h2⟩ := sum_take_cover _ _ hk
    exact ⟨i, hi, by rw [offsetsOf_getD _ _ hi]; exact h1,
      by rw [offsetsOf_getD _ _ hi]; exact h2⟩
  · intro k i j hi hj hi1 hi2 hj1 hj2
    rcases Nat.lt_trichotomy i j with hij | hij | hij
    · exact absurd hj1 (by have := disj i j hij hj; omega)
    · exact hij
    · exact absurd hi1 (by have := disj j i hij hi; omega)

/-- C3 witness: the partition properties instantiated at the concrete
6-and-4-particle configuration. -/
theorem C3_witness :
    ((offsetsOf (sizesOf ps46)).length = (sizesOf ps46).length)
      ∧ ((Physics.new ps46).flags.map (fun f => f.width * f.height) = sizesOf ps46)
      ∧ ((Physics.new ps46).nodes.length = (sizesOf ps46).sum)
      ∧ (∀ i, i + 1 < (sizesOf ps46).length →
          (offsetsOf (sizesOf ps46)).getD (i + 1) 0
            = (offsetsOf (sizesOf ps46)).getD i 0 + (sizesOf ps46).getD i 0)
      ∧ (∀ i j, i < j → j < (sizesOf ps46).length →
          (offsetsOf (sizesOf ps46)).getD i 0 + (sizesOf ps46).getD i 0
            ≤ (offsetsOf (sizesOf ps46)).getD j 0)
      ∧ (∀ k, k < (sizesOf ps46).sum → ∃ i, i < (sizesOf ps46).length
          ∧ (offsetsOf (sizesOf ps46)).getD i 0 ≤ k
          ∧ k < (offsetsOf (sizesOf ps46)).getD i 0 + (sizesOf ps46).getD i 0)
      ∧ (∀ k i j, i < (sizesOf ps46).length → j < (sizesOf ps46).length →
          (offsetsOf (sizesOf ps46)).getD i 0 ≤ k →
          k < (offsetsOf (sizesOf ps46)).getD i 0 + (sizesOf ps46).getD i 0 →
          (offsetsOf (sizesOf ps46)).getD j 0 ≤ k →
          k < (offsetsOf (sizesOf ps46)).getD j 0 + (sizesOf ps46).getD j 0 → i = j)
      ∧ (offsetsOf (sizesOf ps46) = [0, 6])
      ∧ ((Physics.new ps46).nodes.length = 10) :=
  C3_partition_ranges ps46 (by simp [ps46])

/-- The two sequential boundary ifs on one coordinate collapse to a two-sided
case split: after the high-side pull-back the value stays positive, so the
low-side branch never fires on it. -/
theorem constrainCoord_eq (x : ℝ) :
    (if (if 1500 < x then x + 0.75 * (1500 - x) else x) < 0
      then (if 1500 < x then x + 0.75 * (1500 - x) else x)
        - 0.75 * (if 1500 < x then x + 0.75 * (1500 - x) else x)
      else (if 1500 < x then x + 0.75 * (1500 - x) else x))
    = if 1500 < x then x + 0.75 * (1500 - x) else if x < 0 then x - 0.75 * x else x := by
  by_cases h1 : (1500 : ℝ) < x
  · rw [if_pos h1, if_neg (show ¬x + 0.75 * (1500 - x) < 0 by linarith), if_pos h1]
  · rw [if_neg h1, if_neg h1]

/-- The boundary pass on one unpinned node, with the let chain resolved. -/
theorem constrainNode_eq (n : Node) (hn : n.pinned = false) :
    constrainNode n =
      { n with pos :=
          ⟨if 1500 < n.pos.x then n.pos.x + 0.75 * (1500 - n.pos.x)
            else if n.pos.x < 0 then n.pos.x - 0.75 * n.pos.x else n.pos.x,
           if 1500 < n.pos.y then n.pos.y + 0.75 * (1500 - n.pos.y)
            else if n.pos.y < 0 then n.pos.y - 0.75 * n.pos.y else n.pos.y⟩ } := by
  have hW : ((WIDTH : ℕ) : ℝ) = 1500 := by norm_num [WIDTH]
  have hH : ((HEIGHT : ℕ) : ℝ) = 1500 := by norm_num [HEIGHT]
  simp only [constrainNode, hn, Bool.false_eq_true, if_false, hW, hH]
  rw [constrainCoord_eq, constrainCoord_eq]

/-- C6: a step applies, in order, the Verlet integrator with the displacement
clamped to length 50, then the boundary pass that pulls every out-of-area
coordinate back by exactly 0.75 of its overshoot (no hard clamp), then the
link relaxation; the integrator and boundary pass act per unpinned node. -/
theorem C6_step_passes (p : Physics) (g : Vec2) (dt : ℝ) (i : ℕ)
    (hi : i < p.nodes.length)
    (hunpin : (p.nodes.getD i default).pinned = false) :
    (p.step g dt = ((p.update_pos g dt).apply_constraint).apply_links)
      ∧ ((p.update_pos g dt).nodes.getD i default
          = ⟨(p.nodes.getD i default).pos
              + Vec2.clampLengthMax ((p.nodes.getD i default).pos
                  - (p.nodes.getD i default).last_pos + (dt * dt) • g) 50,
             (p.nodes.getD i default).pos, (p.nodes.getD i default).pinned⟩)
      ∧ (p.apply_constraint.nodes.getD i default = constrainNode (p.nodes.getD i default))
      ∧ (∀ n : Node, n.pinned = false →
          ((1500 < n.pos.x → (constrainNode n).pos.x = n.pos.x - 0.75 * (n.pos.x - 1500))
            ∧ (n.pos.x < 0 → (constrainNode n).pos.x = n.pos.x - 0.75 * (n.pos.x - 0))
            ∧ (0 ≤ n.pos.x → n.pos.x ≤ 1500 → (constrainNode n).pos.x = n.pos.x)
            ∧ (1500 < n.pos.y → (constrainNode n).pos.y = n.pos.y - 0.75 * (n.pos.y - 1500))
            ∧ (n.pos.y < 0 → (constrainNode n).pos.y = n.pos.y - 0.75 * (n.pos.y - 0))
            ∧ (0 ≤ n.pos.y → n.pos.y ≤ 1500 → (constrainNode n).pos.y = n.pos.y)
            ∧ (constrainNode n).last_pos = n.last_pos
            ∧ (constrainNode n).pinned = n.pinned)) := by
  refine ⟨rfl, ?_, ?_, ?_⟩
  · show (p.nodes.map (updateNode g dt)).getD i default = _
    rw [getD_map_of_lt _ _ _ default _ hi]
    unfold updateNode
    rw [if_neg (by rw [hunpin]; exact Bool.false_ne_true)]
  · show (p.nodes.map constrainNode).getD i default = _
    rw [getD_map_of_lt _ _ _ default _ hi]
  · intro n hn
    rw [constrainNode_eq n hn]
    dsimp only
    refine ⟨?_, ?_, ?_, ?_, ?_, ?_, rfl, rfl⟩
    · intro h
      simp only [if_pos h]
      ring
    · intro h
      simp only [if_neg (by linarith : ¬(1500 : ℝ) < n.pos.x), if_pos h]
      ring
    · intro h0 h1500
      by_cases hx : (1500 : ℝ) < n.pos.x
      · exact absurd hx (by linarith)
      · simp only [if_neg hx, if_neg (by linarith : ¬n.pos.x < 0)]
    · intro h
      simp only [if_pos h]
      ring
    · intro h
      simp only [if_neg (by linarith : ¬(1500 : ℝ) < n.pos.y), if_pos h]
      ring
    · intro h0 h1500
      by_cases hy : (1500 : ℝ) < n.pos.y
      · exact absurd hy (by linarith)
      · simp only [if_neg hy, if_neg (by linarith : ¬n.pos.y < 0)]

/-- C6 witness: the pass decomposition instantiated on the concrete state Pw
at its unpinned node 1. -/
theorem C6_witness :
    (Pw.step ⟨0, 9⟩ 1 = ((Pw.update_pos ⟨0, 9⟩ 1).apply_constraint).apply_links)
      ∧ ((Pw.update_pos ⟨0, 9⟩ 1).nodes.getD 1 default
          = ⟨(Pw.nodes.getD 1 default).pos
              + Vec2.clampLengthMax ((Pw.nodes.getD 1 default).pos
                  - (Pw.nodes.getD 1 default).last_pos + ((1 : ℝ) * 1) • (⟨0, 9⟩ : Vec2)) 50,
             (Pw.nodes.getD 1 default).pos, (Pw.nodes.getD 1 default).pinned⟩)
      ∧ (Pw.apply_constraint.nodes.getD 1 default = constrainNode (Pw.nodes.getD 1 default))
      ∧ (∀ n : Node, n.pinned = false →
          ((1500 < n.pos.x → (constrainNode n).pos.x = n.pos.x - 0.75 * (n.pos.x - 1500))
            ∧ (n.pos.x < 0 → (constrainNode n).pos.x = n.pos.x - 0.75 * (n.pos.x - 0))
            ∧ (0 ≤ n.pos.x → n.pos.x ≤ 1500 → (constrainNode n).pos.x = n.pos.x)
            ∧ (1500 < n.pos.y → (constrainNode n).pos.y = n.pos.y - 0.75 * (n.pos.y - 1500))
            ∧ (n.pos.y < 0 → (constrainNode n).pos.y = n.pos.y - 0.75 * (n.pos.y - 0))
            ∧ (0 ≤ n.pos.y → n.pos.y ≤ 1500 → (constrainNode n).pos.y = n.pos.y)
            ∧ (constrainNode n).last_pos = n.last_pos
            ∧ (constrainNode n).pinned = n.pinned)) :=
  C6_step_passes Pw ⟨0, 9⟩ 1 1 (by simp [Pw]) (by rfl)

/-- C8: select_nodes stores as active selection exactly the indices of
particles whose (squared) distance to the cursor is strictly within the pick
radius 10; when none qualifies, any prior selection is cleared (an empty
selection, not an error) and a subsequent drag is a no-op. -/
theorem C8_select_within_radius (p : Physics) (cursor : Vec2) :
    (∀ i, i ∈ ((p.select_nodes cursor).selected_nodes.getD [])
        ↔ (i < p.nodes.length
            ∧ Vec2.distSq (p.nodes.getD i default).pos cursor < 10 * 10))
      ∧ ((∀ i, i < p.nodes.length →
            ¬Vec2.distSq (p.nodes.getD i default).pos cursor < 10 * 10) →
          ((p.select_nodes cursor).selected_nodes = none
            ∧ ∀ q : Vec2,
                (p.select_nodes cursor).move_selected_nodes q = p.select_nodes cursor)) := by
  have hsel : (p.select_nodes cursor).selected_nodes
      = if ((List.range p.nodes.length).filter fun i =>
            decide (Vec2.distSq (p.nodes.getD i default).pos cursor < 10 * 10)).isEmpty
        then none
        else some ((List.range p.nodes.length).filter fun i =>
            decide (Vec2.distSq (p.nodes.getD i default).pos cursor < 10 * 10)) := rfl
  have hmem : ∀ i, i ∈ ((List.range p.nodes.length).filter fun i =>
        decide (Vec2.distSq (p.nodes.getD i default).pos cursor < 10 * 10))
      ↔ (i < p.nodes.length
          ∧ Vec2.distSq (p.nodes.getD i default).pos cursor < 10 * 10) := by
    intro i
    rw [List.mem_filter, List.mem_range]
    simp
  constructor
  · intro i
    by_cases he : ((List.range p.nodes.length).filter fun i =>
        decide (Vec2.distSq (p.nodes.getD i default).pos cursor < 10 * 10)).isEmpty
    · rw [hsel, if_pos he]
      have hnil := List.isEmpty_iff.mp he
      constructor
      · intro hmem2
        simp at hmem2
      · intro hq
        exact absurd ((hmem i).mpr hq) (by rw [hnil]; simp)
    · rw [hsel, if_neg he]
      exact hmem i
  · intro hno
    have hnil : ((List.range p.nodes.length).filter fun i =>
        decide (Vec2.distSq (p.nodes.getD i default).pos cursor < 10 * 10)) = [] := by
      rw [List.filter_eq_nil_iff]
      intro a ha
      simp only [decide_eq_true_eq]
      exact hno a (List.mem_range.mp ha)
    have hsel2 : (p.select_nodes cursor).selected_nodes = none := by
      rw [hsel, hnil]
      rfl
    refine ⟨hsel2, fun q => ?_⟩
    unfold Physics.move_selected_nodes
    rw [hsel2]

/-- C8 witness: with the cursor far from both nodes of Pw, the selection is
cleared and dragging afterwards changes nothing. -/
theorem C8_witness :
    (Pw.select_nodes ⟨1000, 1000⟩).selected_nodes = none
      ∧ ∀ q : Vec2,
          (Pw.select_nodes ⟨1000, 1000⟩).move_selected_nodes q
            = Pw.select_nodes ⟨1000, 1000⟩ :=
  (C8_select_within_radius Pw ⟨1000, 1000⟩).2 (by
    intro i hi
    have h2 : i < 2 := by simpa [Pw] using hi
    interval_cases i <;> norm_num [Pw, Vec2.distSq, Vec2.lengthSq])

/-- setPos at another index leaves the whole node unchanged. -/
theorem setPos_getD_ne (ns : List Node) (i : ℕ) (q : Vec2) (j : ℕ) (h : j ≠ i) :
    (setPos ns i q).getD j default = ns.getD j default := by
  simp [setPos, List.getD_eq_getElem?_getD, List.getElem?_set_ne (Ne.symm h)]

/-- Dragging a list of indices keeps the node count. -/
theorem foldl_setPos_length (sel : List ℕ) (ns : List Node) (q : Vec2) :
    (sel.foldl (fun ns i => setPos ns i q) ns).length = ns.length := by
  induction sel generalizing ns with
  | nil => rfl
  | cons i rest ih => rw [List.foldl_cons, ih, setPos_length]

/-- Dragging never changes previous positions. -/
theorem foldl_setPos_last (sel : List ℕ) (ns : List Node) (q : Vec2) (j : ℕ) :
    ((sel.foldl (fun ns i => setPos ns i q) ns).getD j default).last_pos
      = (ns.getD j default).last_pos := by
  induction sel generalizing ns with
  | nil => rfl
  | cons i rest ih => rw [List.foldl_cons, ih, setPos_last]

/-- Dragging never changes pinned flags. -/
theorem foldl_setPos_pinned (sel : List ℕ) (ns : List Node) (q : Vec2) (j : ℕ) :
    ((sel.foldl (fun ns i => setPos ns i q) ns).getD j default).pinned
      = (ns.getD j default).pinned := by
  induction sel generalizing ns with
  | nil => rfl
  | cons i rest ih => rw [List.foldl_cons, ih, setPos_pinned]

/-- Dragging leaves nodes outside the selection untouched. -/
theorem foldl_setPos_not_mem (sel : List ℕ) (ns : List Node) (q : Vec2) (j : ℕ)
    (hj : j ∉ sel) :
    (sel.foldl (fun ns i => setPos ns i q) ns).getD j default = ns.getD j default := by
  induction sel generalizing ns with
  | nil => rfl
  | cons i rest ih =>
    have hji : j ≠ i := by
      intro h
      exact hj (h ▸ List.mem_cons_self i rest)
    rw [List.foldl_cons, ih _ (fun h => hj (List.mem_cons_of_mem i h)),
      setPos_getD_ne _ _ _ _ hji]

/-- Dragging writes the cursor position at every selected in-range index. -/
theorem foldl_setPos_mem (sel : List ℕ) (ns : List Node) (q : Vec2) (j : ℕ)
    (hj : j ∈ sel) (hlen : j < ns.length) :
    ((sel.foldl (fun ns i => setPos ns i q) ns).getD j default).pos = q := by
  induction sel generalizing ns with
  | nil => simp at hj
  | cons i rest ih =>
    rw [List.foldl_cons]
    by_cases hr : j ∈ rest
    · exact ih _ hr (by rw [setPos_length]; exact hlen)
    · have hij : j = i := by
        rcases List.mem_cons.mp hj with h | h
        · exact h
        · exact absurd h hr
      subst hij
      rw [foldl_setPos_not_mem _ _ _ _ hr, setPos_pos_self _ _ _ hlen]

/-- C9: with an active selection, drag overwrites the position of every
selected particle with the cursor — pinned or not — while previous positions,
unselected particles and the selection itself are unchanged. -/
theorem C9_drag_overwrites_selected (p : Physics) (sel : List ℕ) (q : Vec2)
    (hsel : p.selected_nodes = some sel)
    (hin : ∀ i, i ∈ sel → i < p.nodes.length) :
    (∀ i, i ∈ sel → ((p.move_selected_nodes q).nodes.getD i default).pos = q)
      ∧ (∀ i, ((p.move_selected_nodes q).nodes.getD i default).last_pos
          = (p.nodes.getD i default).last_pos)
      ∧ (∀ i, ((p.move_selected_nodes q).nodes.getD i default).pinned
          = (p.nodes.getD i default).pinned)
      ∧ (∀ i, i ∉ sel →
          (p.move_selected_nodes q).nodes.getD i default = p.nodes.getD i default)
      ∧ ((p.move_selected_nodes q).selected_nodes = p.selected_nodes) := by
  have hmv : p.move_selected_nodes q
      = { p with nodes := sel.foldl (fun ns i => setPos ns i q) p.nodes } := by
    unfold Physics.move_selected_nodes
    rw [hsel]
  rw [hmv]
  exact ⟨fun i hi => foldl_setPos_mem sel p.nodes q i hi (hin i hi),
    fun i => foldl_setPos_last sel p.nodes q i,
    fun i => foldl_setPos_pinned sel p.nodes q i,
    fun i hi => foldl_setPos_not_mem sel p.nodes q i hi, rfl⟩

/-- Concrete state with the pinned node 0 selected, for the C9 witness. -/
def Psel : Physics :=
  ⟨[⟨⟨1, 2⟩, ⟨1, 2⟩, true⟩, ⟨⟨4, 2⟩, ⟨4, 2⟩, false⟩],
    [⟨2, 1, [⟨0, 1, 3⟩], [⟨0, 1, 3⟩]⟩], some [0]⟩

/-- C9 witness: dragging the concrete selection containing the pinned node 0
moves it to the cursor and leaves everything else unchanged. -/
theorem C9_witness :
    (∀ i, i ∈ [0] → ((Psel.move_selected_nodes ⟨7, 8⟩).nodes.getD i default).pos
        = (⟨7, 8⟩ : Vec2))
      ∧ (∀ i, ((Psel.move_selected_nodes ⟨7, 8⟩).nodes.getD i default).last_pos
          = (Psel.nodes.getD i default).last_pos)
      ∧ (∀ i, ((Psel.move_selected_nodes ⟨7, 8⟩).nodes.getD i default).pinned
          = (Psel.nodes.getD i default).pinned)
      ∧ (∀ i, i ∉ ([0] : List ℕ) →
          (Psel.move_selected_nodes ⟨7, 8⟩).nodes.getD i default
            = Psel.nodes.getD i default)
      ∧ ((Psel.move_selected_nodes ⟨7, 8⟩).selected_nodes = Psel.selected_nodes) :=
  C9_drag_overwrites_selected Psel [0] ⟨7, 8⟩ (by rfl) (by
    intro i hi
    have : i = 0 := by simpa using hi
    simp [this, Psel])

/-- All offset links of a simulation, in stable flag-then-link order. -/
def allOffsetLinks (p : Physics) : List Link := p.flags.flatMap fun f => f.offset_links

/-- A flatMap producing two entries per element has twice the length. -/
theorem length_flatMap_pair (L : List Link) :
    (L.flatMap fun l => [toI16 l.node1, toI16 l.node2]).length = 2 * L.length := by
  induction L with
  | nil => rfl
  | cons l rest ih =>
    rw [List.flatMap_cons, List.length_append, ih, List.length_cons]
    simp
    omega

/-- Entry 2k of the flattened pair list is the first member of pair k. -/
theorem getD_flatMap_pair_fst (L : List Link) (k : ℕ) (hk : k < L.length) :
    (L.flatMap fun l => [toI16 l.node1, toI16 l.node2]).getD (2 * k) 0
      = toI16 ((L.getD k default).node1) := by
  induction L generalizing k with
  | nil => simp at hk
  | cons l rest ih =>
    cases k with
    | zero => rfl
    | succ k =>
      have hk' : k < rest.length := by simpa using hk
      rw [List.flatMap_cons]
      have e : 2 * (k + 1) = 2 * k + 2 := by ring
      rw [e]
      simp only [List.cons_append, List.nil_append, List.getD_cons_succ]
      exact ih k hk'

/-- Entry 2k+1 of the flattened pair list is the second member of pair k. -/
theorem getD_flatMap_pair_snd (L : List Link) (k : ℕ) (hk : k < L.length) :
    (L.flatMap fun l => [toI16 l.node1, toI16 l.node2]).getD (2 * k + 1) 0
      = toI16 ((L.getD k default).node2) := by
  induction L generalizing k with
  | nil => simp at hk
  | cons l rest ih =>
    cases k with
    | zero => rfl
    | succ k =>
      have hk' : k < rest.length := by simpa using hk
      rw [List.flatMap_cons]
      have e : 2 * (k + 1) + 1 = 2 * k + 1 + 2 := by ring
      rw [e]
      simp only [List.cons_append, List.nil_append, List.getD_cons_succ]
      exact ih k hk'

/-- The i32 narrowing is exact below 2^31. -/
theorem toI32_small (m : ℕ) (hm : m < 2147483648) : toI32 m = (m : ℤ) := by
  unfold toI32
  split_ifs with h <;> omega

/-- num_links equals the total offset-link count when every per-flag link
count fits in i32 and the two per-flag link lists have equal length. -/
theorem num_links_aux (fs : List Flag)
    (hlen : ∀ f ∈ fs, f.offset_links.length = f.links.length)
    (hsmall : ∀ f ∈ fs, f.links.length < 2147483648) :
    (fs.map fun f => toI32 f.links.length).sum
      = (((fs.flatMap fun f => f.offset_links).length : ℤ)) := by
  induction fs with
  | nil => rfl
  | cons f rest ih =>
    have hf := hlen f (List.mem_cons_self f rest)
    have hs := hsmall f (List.mem_cons_self f rest)
    rw [List.map_cons, List.sum_cons, List.flatMap_cons, List.length_append,
      ih (fun g hg => hlen g (List.mem_cons_of_mem f hg))
        (fun g hg => hsmall g (List.mem_cons_of_mem f hg)),
      toI32_small _ hs, hf]
    push_cast
    ring

/-- C10: get_indices returns exactly 2 * num_links entries — the two global
node indices of every link in stable order — but each narrowed to i16: an
entry equals the true index exactly when that index is at most 32767, and
wraps around beyond that (32768 becomes -32768). -/
theorem C10_get_indices_i16 (p : Physics)
    (hlen : ∀ f ∈ p.flags, f.offset_links.length = f.links.length)
    (hsmall : ∀ f ∈ p.flags, f.links.length < 2147483648) :
    ((p.get_indices).length = 2 * (allOffsetLinks p).length)
      ∧ (p.num_links = ((allOffsetLinks p).length : ℤ))
      ∧ (∀ k, k < (allOffsetLinks p).length →
          (p.get_indices).getD (2 * k) 0 = toI16 (((allOffsetLinks p).getD k default).node1)
            ∧ (p.get_indices).getD (2 * k + 1) 0
              = toI16 (((allOffsetLinks p).getD k default).node2))
      ∧ (∀ m : ℕ, toI16 m = (m : ℤ) ↔ m < 32768)
      ∧ (toI16 32768 = -32768) := by
  refine ⟨length_flatMap_pair _, num_links_aux p.flags hlen hsmall, ?_, ?_, ?_⟩
  · intro k hk
    exact ⟨getD_flatMap_pair_fst _ _ hk, getD_flatMap_pair_snd _ _ hk⟩
  · intro m
    unfold toI16
    split_ifs with h <;> omega
  · unfold toI16
    norm_num

/-- C10 witness: the index-buffer properties instantiated on the concrete
state Pw, whose single flag has matching local and offset link lists. -/
theorem C10_witness :
    ((Pw.get_indices).length = 2 * (allOffsetLinks Pw).length)
      ∧ (Pw.num_links = ((allOffsetLinks Pw).length : ℤ))
      ∧ (∀ k, k < (allOffsetLinks Pw).length →
          (Pw.get_indices).getD (2 * k) 0 = toI16 (((allOffsetLinks Pw).getD k default).node1)
            ∧ (Pw.get_indices).getD (2 * k + 1) 0
              = toI16 (((allOffsetLinks Pw).getD k default).node2))
      ∧ (∀ m : ℕ, toI16 m = (m : ℤ) ↔ m < 32768)
      ∧ (toI16 32768 = -32768) :=
  C10_get_indices_i16 Pw
    (by
      intro f hf
      have : f = ⟨2, 1, [⟨0, 1, 3⟩], [⟨0, 1, 3⟩]⟩ := by simpa [Pw] using hf
      rw [this])
    (by
      intro f hf
      have : f = ⟨2, 1, [⟨0, 1, 3⟩], [⟨0, 1, 3⟩]⟩ := by simpa [Pw] using hf
      rw [this]
      norm_num)

/-- Indexing a fold of constant-width blocks: entry x + y * w is entry x of
block y. -/
theorem getElem?_flatMap_range {α : Type} (f : ℕ → List α) (w : ℕ)
    (hf : ∀ y, (f y).length = w) (h x y : ℕ) (hx : x < w) (hy : y < h) :
    ((List.range h).flatMap f)[x + y * w]? = (f y)[x]? := by
  induction h with
  | zero => simp at hy
  | succ h ih =>
    rw [List.range_succ, List.flatMap_append, List.flatMap_cons, List.flatMap_nil,
      List.append_nil]
    by_cases hyh : y < h
    · rw [List.getElem?_append_left, ih hyh]
      rw [length_flatMap_range _ _ _ hf]
      calc x + y * w < (y + 1) * w := by rw [Nat.succ_mul]; omega
        _ ≤ h * w := Nat.mul_le_mul_right w (by omega)
    · have hyeq : y = h := by omega
      subst hyeq
      have hge : ((List.range y).flatMap f).length ≤ x + y * w := by
        rw [length_flatMap_range _ _ _ hf]
        exact Nat.le_add_left _ _
      rw [List.getElem?_append_right hge, length_flatMap_range _ _ _ hf]
      congr 1
      omega

/-- The node written by Flag::new at grid position (x, y). -/
theorem flagNodes_getD (corner : Vec2) (size : ℝ) (w h x y : ℕ)
    (hx : x < w) (hy : y < h) :
    (flagNodes corner size w h).getD (x + y * w) default
      = ⟨posAt corner size w x y, posAt corner size w x y,
          x == 0 && (y == 0 || y == h - 1)⟩ := by
  rw [List.getD_eq_getElem?_getD, flagNodes,
    getElem?_flatMap_range _ w (fun y => by simp) h x y hx hy,
    List.getElem?_map, List.getElem?_range hx]
  rfl

/-- Summing a 0/1 indicator over a list counts the satisfying entries. -/
theorem sum_map_ite_countP (l : List ℕ) (c : ℕ → Bool) :
    (l.map (fun y => if c y then 1 else 0)).sum = l.countP c := by
  induction l with
  | nil => rfl
  | cons a rest ih =>
    rw [List.map_cons, List.sum_cons, List.countP_cons, ih]
    omega

/-- countP distributes over flatMap as a sum of per-block counts. -/
theorem countP_flatMap {α β : Type} (l : List α) (f : α → List β) (pr : β → Bool) :
    (l.flatMap f).countP pr = (l.map (fun a => (f a).countP pr)).sum := by
  induction l with
  | nil => rfl
  | cons a rest ih =>
    rw [List.flatMap_cons, List.countP_append, List.map_cons, List.sum_cons, ih]

/-- Exactly one entry of range w is 0 when w ≥ 1. -/
theorem countP_range_zero (w : ℕ) (hw : 1 ≤ w) :
    (List.range w).countP (fun x => x == 0) = 1 := by
  induction w with
  | zero => omega
  | succ n ih =>
    rw [List.range_succ, List.countP_append]
    rcases Nat.eq_zero_or_pos n with h0 | hpos
    · subst h0
      rfl
    · rw [ih hpos]
      have hne : (n == 0) = false := by
        simp
        omega
      simp [List.countP_cons, hne]

/-- Exactly two entries of range h are 0 or h - 1 when h ≥ 2. -/
theorem countP_range_corners (h : ℕ) (hh : 2 ≤ h) :
    (List.range h).countP (fun y => y == 0 || y == h - 1) = 2 := by
  induction h with
  | zero => omega
  | succ n ih =>
    rcases Nat.lt_or_ge n 2 with h2 | h2
    · have hn : n = 1 := by omega
      subst hn
      rfl
    · rw [List.range_succ, List.countP_append]
      have e1 : (List.range n).countP (fun y => y == 0 || y == (n + 1) - 1)
          = (List.range n).countP (fun y => y == 0 || y == n - 1 && false) := by
        refine List.countP_congr ?_
        intro x hx
        have hxn : x < n := List.mem_range.mp hx
        constructor
        · intro hor
          rcases Bool.or_eq_true_iff.mp hor with h | h
          · exact Bool.or_eq_true_iff.mpr (Or.inl h)
          · have : x = n := by simpa using h
            omega
        · intro hor
          rcases Bool.or_eq_true_iff.mp hor with h | h
          · exact Bool.or_eq_true_iff.mpr (Or.inl h)
          · simp at h
      have e2 : (List.range n).countP (fun y => y == 0 || y == n - 1 && false)
          = (List.range n).countP (fun y => y == 0) := by
        refine List.countP_congr ?_
        intro x hx
        simp
      have e3 : ([n].countP (fun y => y == 0 || y == (n + 1) - 1)) = 1 := by
        have hne : (n == 0) = false := by
          simp
          omega
        simp [List.countP_cons, hne]
      rw [e1, e2, countP_range_zero n (by omega), e3]

/-- Per-row pin count of one flag row: 1 on the two corner rows, else 0. -/
theorem row_pin_count (corner : Vec2) (size : ℝ) (w h y : ℕ) (hw : 1 ≤ w) :
    (((List.range w).map fun x =>
        (⟨posAt corner size w x y, posAt corner size w x y,
          x == 0 && (y == 0 || y == h - 1)⟩ : Node)).countP (fun n => n.pinned))
      = if (y == 0 || y == h - 1) then 1 else 0 := by
  rw [List.countP_map]
  by_cases hc : (y == 0 || y == h - 1) = true
  · rw [if_pos hc]
    calc (List.range w).countP
          ((fun n => n.pinned) ∘ fun x =>
            (⟨posAt corner size w x y, posAt corner size w x y,
              x == 0 && (y == 0 || y == h - 1)⟩ : Node))
        = (List.range w).countP (fun x => x == 0) := by
          refine List.countP_congr ?_
          intro x hx
          show (x == 0 && (y == 0 || y == h - 1)) = true ↔ (x == 0) = true
          rw [hc, Bool.and_true]
      _ = 1 := countP_range_zero w hw
  · rw [if_neg hc]
    rw [List.countP_eq_zero]
    intro a ha
    show ¬(a == 0 && (y == 0 || y == h - 1)) = true
    rw [Bool.not_eq_true] at hc
    rw [hc, Bool.and_false]
    exact Bool.false_ne_true

/-- Mapping a pinned-flag-preserving function over the nodes preserves the
pinned flag at every index. -/
theorem map_pinned_preserved (f : Node → Node) (hfp : ∀ n, (f n).pinned = n.pinned)
    (ns : List Node) (i : ℕ) :
    ((ns.map f).getD i default).pinned = (ns.getD i default).pinned := by
  by_cases hi : i < ns.length
  · rw [getD_map_of_lt f ns i default default hi, hfp]
  · rw [List.getD_eq_default, List.getD_eq_default]
    · exact Nat.le_of_not_lt hi
    · rw [List.length_map]
      exact Nat.le_of_not_lt hi

/-- C5 (amended): for every instance with width ≥ 1 and height ≥ 1, a
particle is pinned iff it is in column 0 at row 0 or row height - 1; for
height ≥ 2 exactly two particles are pinned, while for height = 1 the two
corner rows coincide and exactly one particle (the column-0 one) is pinned;
and pin flags are never recomputed afterwards: step preserves every pinned
flag. -/
theorem C5_pinned_iff_corners (corner : Vec2) (size : ℝ) (w h : ℕ)
    (hw : 1 ≤ w) (hh : 1 ≤ h) :
    (∀ x y, x < w → y < h →
        (((flagNodes corner size w h).getD (x + y * w) default).pinned = true
          ↔ (x = 0 ∧ (y = 0 ∨ y = h - 1))))
      ∧ (2 ≤ h → (flagNodes corner size w h).countP (fun n => n.pinned) = 2)
      ∧ (h = 1 → (flagNodes corner size w h).countP (fun n => n.pinned) = 1)
      ∧ (∀ (p : Physics) (g : Vec2) (dt : ℝ) (i : ℕ),
          ((p.step g dt).nodes.getD i default).pinned
            = (p.nodes.getD i default).pinned) := by
  refine ⟨?_, ?_, ?_, ?_⟩
  · intro x y hx hy
    rw [flagNodes_getD _ _ _ _ _ _ hx hy]
    show (x == 0 && (y == 0 || y == h - 1)) = true ↔ _
    simp
  · intro hh2
    rw [flagNodes, countP_flatMap]
    have e : (List.range h).map (fun y =>
          (((List.range w).map fun x =>
            (⟨posAt corner size w x y, posAt corner size w x y,
              x == 0 && (y == 0 || y == h - 1)⟩ : Node)).countP (fun n => n.pinned)))
        = (List.range h).map (fun y => if (y == 0 || y == h - 1) then 1 else 0) := by
      refine List.map_congr_left ?_
      intro y hy
      exact row_pin_count corner size w h y hw
    rw [e, sum_map_ite_countP, countP_range_corners h hh2]
  · intro h1
    subst h1
    rw [flagNodes, countP_flatMap,
      show List.range 1 = [0] from rfl, List.map_cons, List.map_nil, List.sum_cons,
      List.sum_nil, row_pin_count corner size w 1 0 hw]
    rfl
  · intro p g dt i
    show ((((p.update_pos g dt).apply_constraint).apply_links).nodes.getD i default).pinned = _
    have h3 := foldl_flags_pinned
      (((p.update_pos g dt).apply_constraint).flags.zip
        (offsetsOf (((p.update_pos g dt).apply_constraint).flags.map
          (fun f => f.width * f.height))))
      ((p.update_pos g dt).apply_constraint).nodes i
    rw [show (((p.update_pos g dt).apply_constraint).apply_links).nodes
        = (((p.update_pos g dt).apply_constraint).flags.zip
            (offsetsOf (((p.update_pos g dt).apply_constraint).flags.map
              (fun f => f.width * f.height)))).foldl
          (fun ns fo => fo.1.links.foldl (fun ms l => applyLink ms fo.2 l) ns)
          ((p.update_pos g dt).apply_constraint).nodes from rfl, h3]
    show (((((p.update_pos g dt)).nodes.map constrainNode)).getD i default).pinned = _
    rw [map_pinned_preserved constrainNode constrainNode_pinned]
    show (((p.nodes.map (updateNode g dt))).getD i default).pinned = _
    rw [map_pinned_preserved (updateNode g dt) (updateNode_pinned g dt)]

/-- C5 counterexample: a 1 x 1 instance (width 1 ≥ 1, height 1 ≥ 1) pins
exactly one particle, not two — the two left-edge corners coincide. -/
theorem C5_counterexample :
    ((flagNodes ⟨0, 0⟩ 1 1 1).countP (fun n => n.pinned) = 1)
      ∧ ¬((flagNodes ⟨0, 0⟩ 1 1 1).countP (fun n => n.pinned) = 2) := by
  have h1 : (flagNodes ⟨0, 0⟩ 1 1 1).countP (fun n => n.pinned) = 1 := rfl
  exact ⟨h1, by rw [h1]; omega⟩

/-- C5 witness: the amended pin characterization instantiated on a 2 x 2
grid. -/
theorem C5_witness :
    (∀ x y, x < 2 → y < 2 →
        (((flagNodes ⟨3, 4⟩ 10 2 2).getD (x + y * 2) default).pinned = true
          ↔ (x = 0 ∧ (y = 0 ∨ y = 2 - 1))))
      ∧ (2 ≤ 2 → (flagNodes ⟨3, 4⟩ 10 2 2).countP (fun n => n.pinned) = 2)
      ∧ ((2 : ℕ) = 1 → (flagNodes ⟨3, 4⟩ 10 2 2).countP (fun n => n.pinned) = 1)
      ∧ (∀ (p : Physics) (g : Vec2) (dt : ℝ) (i : ℕ),
          ((p.step g dt).nodes.getD i default).pinned
            = (p.nodes.getD i default).pinned) :=
  C5_pinned_iff_corners ⟨3, 4⟩ 10 2 2 (by norm_num) (by norm_num)

/-- Grid index x + y * w determines x and y when x < w. -/
theorem grid_index_inj (w x1 y1 x2 y2 : ℕ) (hx1 : x1 < w) (hx2 : x2 < w)
    (he : x1 + y1 * w = x2 + y2 * w) : x1 = x2 ∧ y1 = y2 := by
  have hw : 0 < w := by omega
  have hm1 : (x1 + y1 * w) % w = x1 := by
    rw [Nat.add_mul_mod_self_right, Nat.mod_eq_of_lt hx1]
  have hm2 : (x2 + y2 * w) % w = x2 := by
    rw [Nat.add_mul_mod_self_right, Nat.mod_eq_of_lt hx2]
  have hd1 : (x1 + y1 * w) / w = y1 := by
    rw [Nat.add_mul_div_right _ _ hw, Nat.div_eq_of_lt hx1]
    omega
  have hd2 : (x2 + y2 * w) / w = y2 := by
    rw [Nat.add_mul_div_right _ _ hw, Nat.div_eq_of_lt hx2]
    omega
  constructor
  · rw [← hm1, ← hm2, he]
  · rw [← hd1, ← hd2, he]

/-- Membership in the horizontal link list of Flag::new. -/
theorem mem_flagLinksH (corner : Vec2) (size : ℝ) (w h : ℕ) (l : Link) :
    l ∈ flagLinksH corner size w h
      ↔ ∃ y, y < h ∧ ∃ x, x < w - 1
          ∧ l = Link.new (flagNodes corner size w h) (x + y * w) (x + 1 + y * w) := by
  simp only [flagLinksH, List.mem_flatMap, List.mem_map, List.mem_range]
  constructor
  · rintro ⟨y, hy, x, hx, e⟩
    exact ⟨y, hy, x, hx, e.symm⟩
  · rintro ⟨y, hy, x, hx, e⟩
    exact ⟨y, hy, x, hx, e.symm⟩

/-- Membership in the vertical link list of Flag::new. -/
theorem mem_flagLinksV (corner : Vec2) (size : ℝ) (w h : ℕ) (l : Link) :
    l ∈ flagLinksV corner size w h
      ↔ ∃ x, x < w ∧ ∃ y, y < h - 1
          ∧ l = Link.new (flagNodes corner size w h) (x + y * w) (x + (y + 1) * w) := by
  simp only [flagLinksV, List.mem_flatMap, List.mem_map, List.mem_range]
  constructor
  · rintro ⟨x, hx, y, hy, e⟩
    exact ⟨x, hx, y, hy, e.symm⟩
  · rintro ⟨x, hx, y, hy, e⟩
    exact ⟨x, hx, y, hy, e.symm⟩

/-- i is horizontally adjacent to j: same row, consecutive columns. -/
def horizAdj (w h i j : ℕ) : Prop :=
  ∃ y, y < h ∧ ∃ x, x < w - 1 ∧ i = x + y * w ∧ j = x + 1 + y * w

/-- i is vertically adjacent to j: same column, consecutive rows. -/
def vertAdj (w h i j : ℕ) : Prop :=
  ∃ x, x < w ∧ ∃ y, y < h - 1 ∧ i = x + y * w ∧ j = x + (y + 1) * w

/-- Mod/div recover the grid coordinates from a grid index. -/
theorem grid_mod_div (w x y : ℕ) (hx : x < w) :
    (x + y * w) % w = x ∧ (x + y * w) / w = y := by
  constructor
  · rw [Nat.add_mul_mod_self_right, Nat.mod_eq_of_lt hx]
  · rw [Nat.add_mul_div_right _ _ (by omega), Nat.div_eq_of_lt hx]
    omega

/-- The per-link endpoint pairs of one flag are pairwise distinct: no link is
duplicated. -/
theorem nodup_pairs_flagLinks (corner : Vec2) (size : ℝ) (w h : ℕ) :
    ((flagLinks corner size w h).map (fun l => (l.node1, l.node2))).Nodup := by
  rw [flagLinks, List.map_append]
  refine List.Nodup.append ?_ ?_ ?_
  · rw [flagLinksH, List.map_flatMap]
    refine List.nodup_flatMap.mpr ⟨?_, ?_⟩
    · intro y hy
      rw [List.map_map]
      refine List.Nodup.map_on ?_ (List.nodup_range _)
      intro x1 h1 x2 h2 he
      have e1 : x1 + y * w = x2 + y * w := congrArg Prod.fst he
      omega
    · refine (List.pairwise_lt_range h).imp ?_
      intro y1 y2 hlt p hp1 hp2
      simp only [List.map_map] at hp1 hp2
      obtain ⟨x1, hx1, e1⟩ := List.mem_map.mp hp1
      obtain ⟨x2, hx2, e2⟩ := List.mem_map.mp hp2
      have hx1R := List.mem_range.mp hx1
      have hx2R := List.mem_range.mp hx2
      have efst : x1 + y1 * w = x2 + y2 * w :=
        congrArg Prod.fst (e1.trans e2.symm)
      have := grid_index_inj w x1 y1 x2 y2 (by omega) (by omega) efst
      omega
  · rw [flagLinksV, List.map_flatMap]
    refine List.nodup_flatMap.mpr ⟨?_, ?_⟩
    · intro x hx
      rw [List.map_map]
      refine List.Nodup.map_on ?_ (List.nodup_range _)
      intro y1 h1 y2 h2 he
      have hxw := List.mem_range.mp hx
      have e1 : x + y1 * w = x + y2 * w := congrArg Prod.fst he
      have e2 : y1 * w = y2 * w := by omega
      exact Nat.eq_of_mul_eq_mul_right (by omega) e2
    · refine List.Pairwise.imp_of_mem ?_ (List.pairwise_lt_range w)
      intro x1 x2 hm1 hm2 hlt p hp1 hp2
      have hx1w := List.mem_range.mp hm1
      have hx2w := List.mem_range.mp hm2
      simp only [List.map_map] at hp1 hp2
      obtain ⟨y1, hy1, e1⟩ := List.mem_map.mp hp1
      obtain ⟨y2, hy2, e2⟩ := List.mem_map.mp hp2
      have efst : x1 + y1 * w = x2 + y2 * w :=
        congrArg Prod.fst (e1.trans e2.symm)
      have := grid_index_inj w x1 y1 x2 y2 hx1w hx2w efst
      omega
  · intro p hpH hpV
    rw [flagLinksH, List.map_flatMap] at hpH
    rw [flagLinksV, List.map_flatMap] at hpV
    obtain ⟨y, hy, hp1⟩ := List.mem_flatMap.mp hpH
    obtain ⟨x, hx, hp2⟩ := List.mem_flatMap.mp hpV
    rw [List.map_map] at hp1 hp2
    obtain ⟨x1, hx1, e1⟩ := List.mem_map.mp hp1
    obtain ⟨y2, hy2, e2⟩ := List.mem_map.mp hp2
    have hx1R := List.mem_range.mp hx1
    have e : (x1 + y * w, x1 + 1 + y * w) = (x + y2 * w, x + (y2 + 1) * w) :=
      e1.trans e2.symm
    have efst : x1 + y * w = x + y2 * w := congrArg Prod.fst e
    have esnd : x1 + 1 + y * w = x + (y2 + 1) * w := congrArg Prod.snd e
    have : (y2 + 1) * w = y2 * w + w := by ring
    omega

/-- C4: for every instance with width, height ≥ 1, construction creates
exactly width*(height-1) + height*(width-1) links — one per horizontally
adjacent pair and one per vertically adjacent pair, no diagonals and no
duplicates — and each link's resting_distance is the exact Euclidean distance
between its two particles' initial grid positions. -/
theorem C4_links_count_and_resting (corner : Vec2) (size : ℝ) (w h : ℕ)
    (hw : 1 ≤ w) (hh : 1 ≤ h) :
    ((flagLinks corner size w h).length = w * (h - 1) + h * (w - 1))
      ∧ (∀ i j, ((i, j) ∈ (flagLinks corner size w h).map (fun l => (l.node1, l.node2)))
          ↔ (horizAdj w h i j ∨ vertAdj w h i j))
      ∧ (((flagLinks corner size w h).map (fun l => (l.node1, l.node2))).Nodup)
      ∧ (∀ i, i < w * h → ((flagNodes corner size w h).getD i default).pos
          = posAt corner size w (i % w) (i / w))
      ∧ (∀ l ∈ flagLinks corner size w h,
          l.resting_distance
            = Vec2.dist (posAt corner size w (l.node1 % w) (l.node1 / w))
                (posAt corner size w (l.node2 % w) (l.node2 / w))) := by
  have hpos : ∀ x y, x < w → y < h →
      ((flagNodes corner size w h).getD (x + y * w) default).pos
        = posAt corner size w x y := by
    intro x y hx hy
    rw [flagNodes_getD _ _ _ _ _ _ hx hy]
  refine ⟨?_, ?_, nodup_pairs_flagLinks corner size w h, ?_, ?_⟩
  · rw [flagLinks, List.length_append, flagLinksH, flagLinksV,
      length_flatMap_range _ h (w - 1) (fun y => by simp),
      length_flatMap_range _ w (h - 1) (fun x => by simp)]
    ring
  · intro i j
    constructor
    · intro hmem
      obtain ⟨l, hl, e⟩ := List.mem_map.mp hmem
      rcases List.mem_append.mp hl with hl | hl
      · obtain ⟨y, hy, x, hx, rfl⟩ := (mem_flagLinksH corner size w h l).mp hl
        have e1 : x + y * w = i := congrArg Prod.fst e
        have e2 : x + 1 + y * w = j := congrArg Prod.snd e
        exact Or.inl ⟨y, hy, x, hx, e1.symm, e2.symm⟩
      · obtain ⟨x, hx, y, hy, rfl⟩ := (mem_flagLinksV corner size w h l).mp hl
        have e1 : x + y * w = i := congrArg Prod.fst e
        have e2 : x + (y + 1) * w = j := congrArg Prod.snd e
        exact Or.inr ⟨x, hx, y, hy, e1.symm, e2.symm⟩
    · rintro (⟨y, hy, x, hx, rfl, rfl⟩ | ⟨x, hx, y, hy, rfl, rfl⟩)
      · exact List.mem_map.mpr
          ⟨Link.new (flagNodes corner size w h) (x + y * w) (x + 1 + y * w),
            List.mem_append.mpr (Or.inl
              ((mem_flagLinksH corner size w h _).mpr ⟨y, hy, x, hx, rfl⟩)), rfl⟩
      · exact List.mem_map.mpr
          ⟨Link.new (flagNodes corner size w h) (x + y * w) (x + (y + 1) * w),
            List.mem_append.mpr (Or.inr
              ((mem_flagLinksV corner size w h _).mpr ⟨x, hx, y, hy, rfl⟩)), rfl⟩
  · intro i hi
    have hw0 : 0 < w := by omega
    have hxw : i % w < w := Nat.mod_lt _ hw0
    have hyh : i / w < h := by
      rw [Nat.div_lt_iff_lt_mul hw0]
      have hc : w * h = h * w := Nat.mul_comm w h
      omega
    have ei : i = i % w + (i / w) * w := by
      have h1 := Nat.mod_add_div i w
      have h2 : w * (i / w) = (i / w) * w := Nat.mul_comm _ _
      omega
    calc ((flagNodes corner size w h).getD i default).pos
        = ((flagNodes corner size w h).getD (i % w + (i / w) * w) default).pos := by
          rw [← ei]
      _ = posAt corner size w (i % w) (i / w) := hpos _ _ hxw hyh
  · intro l hl
    rcases List.mem_append.mp hl with hlm | hlm
    · obtain ⟨y, hy, x, hx, rfl⟩ := (mem_flagLinksH corner size w h l).mp hlm
      have hx1 : x < w := by omega
      have hx2 : x + 1 < w := by omega
      have ha := hpos x y hx1 hy
      have hb := hpos (x + 1) y hx2 hy
      have gm1 := grid_mod_div w x y hx1
      have gm2 := grid_mod_div w (x + 1) y hx2
      show Vec2.dist ((flagNodes corner size w h).getD (x + y * w) default).pos
          ((flagNodes corner size w h).getD (x + 1 + y * w) default).pos = _
      rw [ha, show x + 1 + y * w = (x + 1) + y * w from rfl, hb]
      rw [show (Link.new (flagNodes corner size w h) (x + y * w)
          (x + 1 + y * w)).node1 = x + y * w from rfl]
      rw [show (Link.new (flagNodes corner size w h) (x + y * w)
          (x + 1 + y * w)).node2 = (x + 1) + y * w from rfl]
      rw [gm1.1, gm1.2, gm2.1, gm2.2]
    · obtain ⟨x, hx, y, hy, rfl⟩ := (mem_flagLinksV corner size w h l).mp hlm
      have hy1 : y < h := by omega
      have hy2 : y + 1 < h := by omega
      have ha := hpos x y hx hy1
      have hb := hpos x (y + 1) hx hy2
      have gm1 := grid_mod_div w x y hx
      have gm2 := grid_mod_div w x (y + 1) hx
      show Vec2.dist ((flagNodes corner size w h).getD (x + y * w) default).pos
          ((flagNodes corner size w h).getD (x + (y + 1) * w) default).pos = _
      rw [ha, hb]
      rw [show (Link.new (flagNodes corner size w h) (x + y * w)
          (x + (y + 1) * w)).node1 = x + y * w from rfl]
      rw [show (Link.new (flagNodes corner size w h) (x + y * w)
          (x + (y + 1) * w)).node2 = x + (y + 1) * w from rfl]
      rw [gm1.1, gm1.2, gm2.1, gm2.2]

/-- C4 witness: the link structure instantiated on a 2 x 2 grid. -/
theorem C4_witness :
    ((flagLinks ⟨3, 4⟩ 10 2 2).length = 2 * (2 - 1) + 2 * (2 - 1))
      ∧ (∀ i j, ((i, j) ∈ (flagLinks ⟨3, 4⟩ 10 2 2).map (fun l => (l.node1, l.node2)))
          ↔ (horizAdj 2 2 i j ∨ vertAdj 2 2 i j))
      ∧ (((flagLinks ⟨3, 4⟩ 10 2 2).map (fun l => (l.node1, l.node2))).Nodup)
      ∧ (∀ i, i < 2 * 2 → ((flagNodes ⟨3, 4⟩ 10 2 2).getD i default).pos
          = posAt ⟨3, 4⟩ 10 2 (i % 2) (i / 2))
      ∧ (∀ l ∈ flagLinks ⟨3, 4⟩ 10 2 2,
          l.resting_distance
            = Vec2.dist (posAt ⟨3, 4⟩ 10 2 (l.node1 % 2) (l.node1 / 2))
                (posAt ⟨3, 4⟩ 10 2 (l.node2 % 2) (l.node2 / 2))) :=
  C4_links_count_and_resting ⟨3, 4⟩ 10 2 2 (by norm_num) (by norm_num)

/-- How far a point lies outside the simulation area [0, 1500] x [0, 1500]:
the per-coordinate overshoots, summed (0 inside the area). -/
def distOutside (v : Vec2) : ℝ :=
  max 0 (v.x - 1500) + max 0 (0 - v.x) + max 0 (v.y - 1500) + max 0 (0 - v.y)

/-- The outside distance is never negative. -/
theorem distOutside_nonneg (v : Vec2) : 0 ≤ distOutside v := by
  unfold distOutside
  have h1 : (0 : ℝ) ≤ max 0 (v.x - 1500) := le_max_left _ _
  have h2 : (0 : ℝ) ≤ max 0 (0 - v.x) := le_max_left _ _
  have h3 : (0 : ℝ) ≤ max 0 (v.y - 1500) := le_max_left _ _
  have h4 : (0 : ℝ) ≤ max 0 (0 - v.y) := le_max_left _ _
  linarith

/-- One boundary pass multiplies each coordinate's overshoot by 0.25. -/
theorem constrainCoord_overshoot (x : ℝ) :
    max 0 ((if 1500 < x then x + 0.75 * (1500 - x)
        else if x < 0 then x - 0.75 * x else x) - 1500)
      + max 0 (0 - (if 1500 < x then x + 0.75 * (1500 - x)
        else if x < 0 then x - 0.75 * x else x))
    = 0.25 * (max 0 (x - 1500) + max 0 (0 - x)) := by
  by_cases h1 : 1500 < x
  · rw [if_pos h1,
      max_eq_right (by linarith : (0 : ℝ) ≤ x + 0.75 * (1500 - x) - 1500),
      max_eq_left (by linarith : 0 - (x + 0.75 * (1500 - x)) ≤ (0 : ℝ)),
      max_eq_right (by linarith : (0 : ℝ) ≤ x - 1500),
      max_eq_left (by linarith : 0 - x ≤ (0 : ℝ))]
    ring
  · rw [if_neg h1]
    by_cases h2 : x < 0
    · rw [if_pos h2,
        max_eq_left (by linarith : x - 0.75 * x - 1500 ≤ (0 : ℝ)),
        max_eq_right (by linarith : (0 : ℝ) ≤ 0 - (x - 0.75 * x)),
        max_eq_left (by linarith : x - 1500 ≤ (0 : ℝ)),
        max_eq_right (by linarith : (0 : ℝ) ≤ 0 - x)]
      ring
    · rw [if_neg h2,
        max_eq_left (by linarith : x - 1500 ≤ (0 : ℝ)),
        max_eq_left (by linarith : 0 - x ≤ (0 : ℝ))]
      ring

/-- C7 (amended): the boundary-constraint pass itself is contractive — it
scales the out-of-area distance of every unpinned particle by exactly 0.25
and never increases it. (A full step need not: inertia is applied before the
constraint, so a particle with outward velocity can end a step farther out.) -/
theorem C7_constraint_contracts_overshoot (n : Node) (hn : n.pinned = false) :
    distOutside (constrainNode n).pos = 0.25 * distOutside n.pos
      ∧ distOutside (constrainNode n).pos ≤ distOutside n.pos := by
  have he : distOutside (constrainNode n).pos = 0.25 * distOutside n.pos := by
    rw [constrainNode_eq n hn]
    show max 0 _ + max 0 _ + max 0 _ + max 0 _ = _
    have ex := constrainCoord_overshoot n.pos.x
    have ey := constrainCoord_overshoot n.pos.y
    unfold distOutside
    dsimp only
    linarith
  refine ⟨he, ?_⟩
  rw [he]
  have := distOutside_nonneg n.pos
  linarith

/-- C7 witness: contraction of the boundary pass evaluated on a concrete
out-of-bounds node at x = 1600. -/
theorem C7_amended_witness :
    distOutside (constrainNode ⟨⟨1600, 100⟩, ⟨1600, 100⟩, false⟩).pos
        = 0.25 * distOutside (⟨1600, 100⟩ : Vec2)
      ∧ distOutside (constrainNode ⟨⟨1600, 100⟩, ⟨1600, 100⟩, false⟩).pos
        ≤ distOutside (⟨1600, 100⟩ : Vec2) :=
  C7_constraint_contracts_overshoot ⟨⟨1600, 100⟩, ⟨1600, 100⟩, false⟩ (by rfl)

/-- One link relaxation when node1 is pinned and node2 is not: only node2
moves, by the negated correction. -/
theorem applyLink_pinned_first (ns : List Node) (off : ℕ) (l : Link)
    (ha : (ns.getD (off + l.node1) default).pinned = true)
    (hb : (ns.getD (off + l.node2) default).pinned = false) :
    applyLink ns off l = setPos ns (off + l.node2)
      ((ns.getD (off + l.node2) default).pos - linkCorrection ns off l) := by
  simp only [applyLink]
  rw [if_pos ha, if_neg (by rw [hb]; exact Bool.false_ne_true)]

/-- Concrete state for the C7 counterexample: node 1 sits just outside the
right edge at x = 1501 with an outward velocity of 100 per sub-step; node 0 is
the pinned anchor of a 2 x 1 flag whose single link has resting length 201. -/
def P₇ : Physics :=
  ⟨[⟨⟨1300, 100⟩, ⟨1300, 100⟩, true⟩, ⟨⟨1501, 100⟩, ⟨1401, 100⟩, false⟩],
    [⟨2, 1, [⟨0, 1, 201⟩], [⟨0, 1, 201⟩]⟩], none⟩

/-- C7 counterexample: one step with zero gravity moves the particle from
distance 1 outside the area to distance 6.875 outside — the out-of-area
distance increases from one step to the next, so repeated stepping is not
monotone as claimed. -/
theorem C7_counterexample :
    distOutside ((P₇.step ⟨0, 0⟩ 1).nodes.getD 1 default).pos
      > distOutside ((P₇.nodes.getD 1 default).pos) := by
  have eu : updateNode ⟨0, 0⟩ 1 ⟨⟨1501, 100⟩, ⟨1401, 100⟩, false⟩
      = ⟨⟨1551, 100⟩, ⟨1501, 100⟩, false⟩ := by
    unfold updateNode
    rw [if_neg (by exact Bool.false_ne_true)]
    have hv : (⟨⟨1501, 100⟩, ⟨1401, 100⟩, false⟩ : Node).pos
        - (⟨⟨1501, 100⟩, ⟨1401, 100⟩, false⟩ : Node).last_pos
        + ((1 : ℝ) * 1) • (⟨0, 0⟩ : Vec2) = ⟨100, 0⟩ := by
      ext <;> norm_num
    rw [hv]
    have hc : Vec2.clampLengthMax ⟨100, 0⟩ 50 = ⟨50, 0⟩ := by
      unfold Vec2.clampLengthMax
      rw [if_pos (by unfold Vec2.lengthSq; norm_num)]
      have hs : Vec2.length ⟨100, 0⟩ = 100 := by
        unfold Vec2.length Vec2.lengthSq
        rw [show (100 : ℝ) * 100 + 0 * 0 = 100 ^ 2 by norm_num,
          Real.sqrt_sq (by norm_num : (0 : ℝ) ≤ 100)]
      rw [hs]
      ext <;> norm_num
    rw [hc]
    have hp : (⟨⟨1501, 100⟩, ⟨1401, 100⟩, false⟩ : Node).pos + (⟨50, 0⟩ : Vec2)
        = ⟨1551, 100⟩ := by
      ext <;> norm_num
    rw [hp]
  have e1 : (P₇.update_pos ⟨0, 0⟩ 1).nodes
      = [⟨⟨1300, 100⟩, ⟨1300, 100⟩, true⟩, ⟨⟨1551, 100⟩, ⟨1501, 100⟩, false⟩] := by
    show P₇.nodes.map (updateNode ⟨0, 0⟩ 1) = _
    rw [show P₇.nodes = [⟨⟨1300, 100⟩, ⟨1300, 100⟩, true⟩,
        ⟨⟨1501, 100⟩, ⟨1401, 100⟩, false⟩] from rfl,
      List.map_cons, List.map_cons, List.map_nil,
      show updateNode ⟨0, 0⟩ 1 ⟨⟨1300, 100⟩, ⟨1300, 100⟩, true⟩
        = ⟨⟨1300, 100⟩, ⟨1300, 100⟩, true⟩ from rfl, eu]
  have ec : constrainNode ⟨⟨1551, 100⟩, ⟨1501, 100⟩, false⟩
      = ⟨⟨1512.75, 100⟩, ⟨1501, 100⟩, false⟩ := by
    rw [constrainNode_eq _ rfl]
    show (⟨⟨if 1500 < (1551 : ℝ) then _ else _, if 1500 < (100 : ℝ) then _ else _⟩,
      ⟨1501, 100⟩, false⟩ : Node) = _
    rw [if_pos (by norm_num : (1500 : ℝ) < 1551),
      if_neg (by norm_num : ¬(1500 : ℝ) < 100),
      if_neg (by norm_num : ¬(100 : ℝ) < 0)]
    have : (1551 : ℝ) + 0.75 * (1500 - 1551) = 1512.75 := by norm_num
    rw [this]
  have e2 : ((P₇.update_pos ⟨0, 0⟩ 1).apply_constraint).nodes
      = [⟨⟨1300, 100⟩, ⟨1300, 100⟩, true⟩, ⟨⟨1512.75, 100⟩, ⟨1501, 100⟩, false⟩] := by
    show (P₇.update_pos ⟨0, 0⟩ 1).nodes.map constrainNode = _
    rw [e1, List.map_cons, List.map_cons, List.map_nil,
      show constrainNode ⟨⟨1300, 100⟩, ⟨1300, 100⟩, true⟩
        = ⟨⟨1300, 100⟩, ⟨1300, 100⟩, true⟩ from rfl, ec]
  have hlc : linkCorrection
      [⟨⟨1300, 100⟩, ⟨1300, 100⟩, true⟩, ⟨⟨1512.75, 100⟩, ⟨1501, 100⟩, false⟩]
      0 ⟨0, 1, 201⟩ = ⟨5.875, 0⟩ := by
    unfold linkCorrection
    have hdiff : ((([⟨⟨1300, 100⟩, ⟨1300, 100⟩, true⟩,
        ⟨⟨1512.75, 100⟩, ⟨1501, 100⟩, false⟩] : List Node).getD (0 + 0) default).pos
        - (([⟨⟨1300, 100⟩, ⟨1300, 100⟩, true⟩,
        ⟨⟨1512.75, 100⟩, ⟨1501, 100⟩, false⟩] : List Node).getD (0 + 1) default).pos)
        = (⟨-212.75, 0⟩ : Vec2) := by
      ext <;> norm_num
    rw [hdiff]
    dsimp only
    have hlen : Vec2.length ⟨-212.75, 0⟩ = 212.75 := by
      unfold Vec2.length Vec2.lengthSq
      rw [show (-212.75 : ℝ) * -212.75 + 0 * 0 = 212.75 ^ 2 by norm_num,
        Real.sqrt_sq (by norm_num : (0 : ℝ) ≤ 212.75)]
    rw [hlen]
    rw [min_eq_left (by norm_num : ((201 : ℝ) - 212.75) / 212.75 * 0.5 ≤ 0.001)]
    ext <;> norm_num
  have e3 : (P₇.step ⟨0, 0⟩ 1).nodes
      = [⟨⟨1300, 100⟩, ⟨1300, 100⟩, true⟩, ⟨⟨1506.875, 100⟩, ⟨1501, 100⟩, false⟩] := by
    show (((P₇.update_pos ⟨0, 0⟩ 1).apply_constraint).apply_links).nodes = _
    rw [show (((P₇.update_pos ⟨0, 0⟩ 1).apply_constraint).apply_links).nodes
        = applyLink ((P₇.update_pos ⟨0, 0⟩ 1).apply_constraint).nodes 0 ⟨0, 1, 201⟩
      from rfl, e2]
    rw [applyLink_pinned_first _ _ _ (by rfl) (by rfl), hlc]
    unfold setPos
    have hq : ((([⟨⟨1300, 100⟩, ⟨1300, 100⟩, true⟩,
        ⟨⟨1512.75, 100⟩, ⟨1501, 100⟩, false⟩] : List Node).getD
          (0 + (⟨0, 1, 201⟩ : Link).node2) default).pos
        - (⟨5.875, 0⟩ : Vec2)) = (⟨1506.875, 100⟩ : Vec2) := by
      ext <;> norm_num
    rw [hq]
    rfl
  rw [e3]
  show distOutside (⟨1506.875, 100⟩ : Vec2) > distOutside (⟨1501, 100⟩ : Vec2)
  unfold distOutside
  rw [max_eq_right (by norm_num : (0 : ℝ) ≤ 1506.875 - 1500),
    max_eq_left (by norm_num : (0 : ℝ) - 1506.875 ≤ 0),
    max_eq_right (by norm_num : (0 : ℝ) ≤ 1501 - 1500),
    max_eq_left (by norm_num : (0 : ℝ) - 1501 ≤ 0)]
  have hy1 : max (0 : ℝ) ((100 : ℝ) - 1500) = 0 := max_eq_left (by norm_num)
  have hy2 : max (0 : ℝ) ((0 : ℝ) - 100) = 0 := max_eq_left (by norm_num)
  rw [hy1, hy2]
  norm_num

end

end Sim
